import Mathlib

/-!
# Verification of the markdown traversal-and-composition engine

Shallow embedding of `src/rich/markdown.py`: the node walker
(`Markdown.__console__`), the per-node-kind element model
(`MarkdownElement` and its subclasses), the style-stack context
(`MarkdownContext`), and the container-close protocol
(`on_child_close`).

External collaborators (`style.py`, `console.py`, `_stack.py`,
`text.py`) are not part of the analysed sources; the definitions that
stand in for them are marked `Modelled from the spec:` and follow the
specification's description of those boundaries.
-/

set_option maxHeartbeats 1000000

namespace RichMd

/-! ## Styles and the style stack -/

/-- Modelled from the spec: a Style is "an opaque named visual attribute
set"; we represent it as an association list of attributes, where in a
composed style an attribute occurring earlier in the list takes
precedence (was pushed later). -/
abbrev Style := List (String × String)

/-- Modelled from the spec: the neutral ("no attributes") style. -/
def neutralStyle : Style := []

/-- Modelled from the spec: the console's style registry boundary — a
lookup `name -> Style | none` against a theme table — plus the base
`current_style` the `MarkdownContext` starts its `StyleStack` from. -/
structure Console where
  styles : List (String × Style)
  current_style : Style

/-- Modelled from the spec: `console.get_style` resolves a style name
against the registry, returning `none` for an unknown name. -/
def Console.get_style (c : Console) (name : String) : Option Style :=
  c.styles.lookup name

/-- Modelled from the spec: `StyleStack` (from `style.py`) is an ordered
sequence of Styles over a base style; its depth is the number of
unmatched pushes. -/
structure StyleStack where
  base : Style
  entries : List Style
deriving DecidableEq, Repr

/-- Modelled from the spec: the current style is "the layered composition
of all entries, outer-to-inner, later entries overriding conflicting
attributes of earlier ones"; with the priority-list representation the
most recently pushed entry comes first. -/
def StyleStack.current (ss : StyleStack) : Style :=
  ss.entries.foldr (fun e acc => e ++ acc) ss.base

def StyleStack.push (ss : StyleStack) (st : Style) : StyleStack :=
  ⟨ss.base, st :: ss.entries⟩

/-- Modelled from the spec: popping with no unmatched push is a stack
underflow, "a fatal programming error"; the model returns `none`. -/
def StyleStack.pop (ss : StyleStack) : Option (Style × StyleStack) :=
  match ss.entries with
  | [] => none
  | st :: rest => some (st, ⟨ss.base, rest⟩)

/-- `console.get_style(style_name) or console.get_style("none")`
(markdown.py line 197), with the spec-modelled guarantee that style
resolution "yields a neutral style rather than failing" when even
`"none"` is unregistered. -/
def resolveStyle (c : Console) (name : String) : Style :=
  ((c.get_style name).orElse (fun _ => c.get_style "none")).getD neutralStyle

/-- `MarkdownContext.enter_style` (markdown.py lines 195-199): resolve,
push, and return the new composed current style. -/
def enter_style (c : Console) (ss : StyleStack) (name : String) : Style × StyleStack :=
  let style := resolveStyle c name
  let ss' := ss.push style
  (ss'.current, ss')

/-! ## Rich text buffers -/

/-- Modelled from the spec: a `Text` (from `text.py`) is an accumulated
text buffer with a base style, a sequence of styled appends, and an
optional justify mode. -/
structure RichText where
  style : Style
  spans : List (String × Style)
  justify : Option String
deriving DecidableEq, Repr

/-- `Text.append(text, style)`: append a styled span to the buffer. -/
def RichText.append (t : RichText) (text : String) (style : Style) : RichText :=
  { t with spans := t.spans ++ [(text, style)] }

/-- `Text(style=...)`: a fresh empty buffer. -/
def newText (st : Style) : RichText := ⟨st, [], none⟩

/-! ## Python string helpers -/

/-- `n`-fold repetition of a string. -/
def strRepeatN (s : String) : Nat → String
  | 0 => ""
  | k + 1 => s ++ strRepeatN s k

/-- Python `s * n` for a string and an int: the empty string when
`n <= 0`. -/
def pyStrMul (s : String) (n : Int) : String := strRepeatN s n.toNat

/-- Python whitespace characters stripped by `str.rstrip()` (ASCII
range). -/
def pyWs (ch : Char) : Bool :=
  ch = ' ' || ch = '\t' || ch = '\n' || ch = '\r' || ch = '\x0b' || ch = '\x0c'

/-- Python `str.rstrip()`: drop trailing whitespace. -/
def pyRstrip (s : String) : String :=
  String.mk ((s.data.reverse.dropWhile pyWs).reverse)

/-! ## The element model

One variant per `MarkdownElement` subclass (markdown.py lines 21-170).
Fields hold the state a live Python instance carries once `on_enter`
has run: the stored composed style (`self.style`), the accumulated
`Text` buffer (`self.text`), and the collected child sequences of the
compound elements. -/

inductive Element where
  /-- `UnknownElement` (lines 46-47). -/
  | unknown : Element
  /-- `Paragraph` (lines 68-72): stored style and text buffer. -/
  | paragraph : Style → RichText → Element
  /-- `Heading` (lines 75-98): level and text buffer. -/
  | heading : Int → RichText → Element
  /-- `CodeBlock` (lines 101-102). -/
  | codeBlock : Style → RichText → Element
  /-- `BlockQuote` (lines 105-121): collected child elements. -/
  | blockQuote : List Element → Element
  /-- `HorizontalRule` (lines 124-129). -/
  | horizontalRule : Element
  /-- `ListElement` (lines 132-148): collected items. -/
  | listElement : List Element → Element
  /-- `ListItem` (lines 151-170): stored style, text buffer, collected
  child elements. -/
  | listItem : Style → RichText → List Element → Element

/-- `new_line` class flag: `True` on `MarkdownElement` (line 23),
overridden to `False` on `HorizontalRule` (line 125). -/
def Element.newLine : Element → Bool
  | .horizontalRule => false
  | _ => true

/-- Number of style entries the element's `on_enter` pushes and its
`on_leave` pops: 1 for every `TextElement` subclass (`Paragraph`,
`Heading`, `CodeBlock`, `BlockQuote`, `ListItem`), 0 for the plain
`MarkdownElement` subclasses. -/
def styleDepth : Element → Nat
  | .paragraph _ _ => 1
  | .heading _ _ => 1
  | .codeBlock _ _ => 1
  | .blockQuote _ => 1
  | .listItem _ _ _ => 1
  | _ => 0

/-- `on_text` dispatch (lines 32-33 and 58-59): `TextElement` subclasses
append to `self.text` under the current composed style; plain elements
ignore the call.  `BlockQuote` overrides `on_enter` without creating
`self.text`, so the inherited `TextElement.on_text` fails on it
(`AttributeError`), modelled as `none`. -/
def elemOnText (e : Element) (cur : Style) (text : String) : Option Element :=
  match e with
  | .paragraph st t => some (.paragraph st (t.append text cur))
  | .heading lvl t => some (.heading lvl (t.append text cur))
  | .codeBlock st t => some (.codeBlock st (t.append text cur))
  | .listItem st t els => some (.listItem st (t.append text cur) els)
  | .blockQuote _ => none
  | e => some e

/-- `on_leave` dispatch (lines 35-36 and 61-62): `TextElement`
subclasses pop their style; plain elements do nothing. -/
def elemLeave (e : Element) (ss : StyleStack) : Option StyleStack :=
  match e with
  | .paragraph _ _ => (ss.pop).map (·.2)
  | .heading _ _ => (ss.pop).map (·.2)
  | .codeBlock _ _ => (ss.pop).map (·.2)
  | .blockQuote _ => (ss.pop).map (·.2)
  | .listItem _ _ _ => (ss.pop).map (·.2)
  | _ => some ss

/-- `on_child_close` dispatch (lines 38-39, 114-117, 142-144, 157-159):
the compound elements collect the closed child and return `False`; the
default returns `True` ("flush the child now"). -/
def onChildClose (parent : Element) (child : Element) : Element × Bool :=
  match parent with
  | .blockQuote els => (.blockQuote (els ++ [child]), false)
  | .listElement items => (.listElement (items ++ [child]), false)
  | .listItem st t els => (.listItem st t (els ++ [child]), false)
  | e => (e, true)

/-! ## Render output -/

/-- Modelled from the spec: a flushed `Segment` — literal text plus the
style in effect (possibly none, as for the bare separator segments the
walker emits). -/
abbrev Seg := String × Option Style

/-- The renderables an element's `__console__` yields: bare segments,
`Text` buffers, and the panel a level-1 heading is wrapped in. -/
inductive RenderItem where
  | seg : String → Option Style → RenderItem
  | txt : RichText → RenderItem
  | panel : RichText → String → RenderItem
deriving DecidableEq, Repr

/-- Modelled from the spec: `console.render_lines(renderables, options,
style)` is the external line-layout boundary; it is kept abstract as a
function from the renderables, the available width, and the style to a
list of segment lines. -/
abbrev RenderLines := List Element → Int → Style → List (List Seg)

/-- One iteration of the loop in `ListItem.render_bullet` (lines
164-170): the first line gets the 3-character bullet `" • "`, every
later line the 3-space indent `" " * 3`, and every line a trailing
newline segment. -/
def bulletLines : Nat → List (List Seg) → List RenderItem
  | _, [] => []
  | i, line :: rest =>
    (if i = 0 then [RenderItem.seg " • " none] else [RenderItem.seg (pyStrMul " " 3) none])
      ++ line.map (fun sg => RenderItem.seg sg.1 sg.2)
      ++ [RenderItem.seg "\n" none]
      ++ bulletLines (i + 1) rest

/-- `ListItem.render_bullet` (lines 161-170): lay the collected children
out at `options.max_width - 3` under the item's stored style, then
prefix and terminate each produced line. -/
def renderBullet (rl : RenderLines) (w : Int) (st : Style) (els : List Element) :
    List RenderItem :=
  bulletLines 0 (rl els (w - 3) st)

/-- `ListElement.__console__` (lines 146-148): render each collected
item's bullet form in order.  A collected child that is not a
`ListItem` has no `render_bullet` method (`AttributeError`), modelled
as `none`. -/
def bulletSeq (rl : RenderLines) (w : Int) : List Element → Option (List RenderItem)
  | [] => some []
  | .listItem st _ els :: rest =>
    (bulletSeq rl w rest).map (fun out => renderBullet rl w st els ++ out)
  | _ => none

/-- The rule character of `HorizontalRule.__console__` (line 129). -/
def hrChar : String := "─"

mutual

/-- `__console__` dispatch: the renderables each element variant yields
(lines 41-43, 64-65, 71-72, 90-98, 119-121, 127-129, 146-148). -/
def Element.console (rl : RenderLines) (c : Console) (w : Int) :
    Element → Option (List RenderItem)
  | .unknown => some []
  | .paragraph _ t => some [.txt t]
  | .heading lvl t =>
    if lvl = 1 then some [.panel { t with justify := some "center" } "markdown.h1.border"]
    else some [.txt { t with justify := some "center" }]
  | .codeBlock _ t => some [.txt t]
  | .blockQuote els => consoleSeq rl c w els
  | .horizontalRule => some [.seg (pyStrMul hrChar w ++ "\n") (c.get_style "markdown.hr")]
  | .listElement items => bulletSeq rl w items
  | .listItem _ t _ => some [.txt t]

/-- `BlockQuote.__console__` (lines 119-121): replay each collected
child's own render output in sequence. -/
def consoleSeq (rl : RenderLines) (c : Console) (w : Int) :
    List Element → Option (List RenderItem)
  | [] => some []
  | e :: es =>
    match Element.console rl c w e, consoleSeq rl c w es with
    | some a, some b => some (a ++ b)
    | _, _ => none

end

/-! ## Nodes, events and the walker

The externally parsed node tree (spec §3 "Node") and the commonmark
walker's flattened traversal: a container yields one entering and one
leaving event around its children's traversal; a leaf yields a single
entering event. -/

/-- A parsed document node: kind tag `t`, container flag, optional
literal text, heading level, children. -/
inductive Node where
  | mk : String → Bool → Option String → Int → List Node → Node

/-- One `(node, entering)` walker event, carrying the node attributes the
walker loop reads (`current.t`, `current.is_container()`,
`current.literal`, `node.level`). -/
structure Event where
  t : String
  isContainer : Bool
  literal : Option String
  level : Int
  entering : Bool
deriving DecidableEq, Repr

mutual

/-- The flattened traversal of one node. -/
def Node.walk : Node → List Event
  | .mk t c lit lvl cs =>
    if c then ⟨t, c, lit, lvl, true⟩ :: walkAll cs ++ [⟨t, c, lit, lvl, false⟩]
    else [⟨t, c, lit, lvl, true⟩]

/-- The flattened traversal of a forest, in document order. -/
def walkAll : List Node → List Event
  | [] => []
  | n :: ns => n.walk ++ walkAll ns

end

/-- `Markdown.inlines = {"emph", "strong", "code"}` (line 218). -/
def isInline (t : String) : Bool :=
  t = "emph" || t = "strong" || t = "code"

/-- Which branch of the walker loop (lines 237-253) an event kind takes. -/
inductive EvKind where
  | text | softbreak | inline | other
deriving DecidableEq, Repr

def evKind (t : String) : EvKind :=
  if t = "text" then .text
  else if t = "softbreak" then .softbreak
  else if isInline t then .inline
  else .other

/-- The registered element classes (`Markdown.elements`, lines 209-217)
plus the `UnknownElement` fallback. -/
inductive ElemClass where
  | paragraph | heading | codeBlock | blockQuote | horizontalRule
  | listElement | listItem | unknown
deriving DecidableEq, Repr

/-- `self.elements.get(node_type) or UnknownElement` (line 254). -/
def classOf (t : String) : ElemClass :=
  if t = "paragraph" then .paragraph
  else if t = "heading" then .heading
  else if t = "code_block" then .codeBlock
  else if t = "block_quote" then .blockQuote
  else if t = "thematic_break" then .horizontalRule
  else if t = "list" then .listElement
  else if t = "item" then .listItem
  else .unknown

/-- `element_class.create(current)` followed by `element.on_enter(context)`
for each variant: `TextElement.on_enter` (lines 54-56) stores the
composed style returned by `enter_style` and creates the text buffer
with the (identical) current style; `Heading.on_enter` (lines 81-83)
creates the buffer with the current style *before* entering
`markdown.h{level}`; `BlockQuote.on_enter` (lines 111-112) only enters
its style; the plain elements do nothing. -/
def elemEnter (c : Console) (cls : ElemClass) (lvl : Int) (ss : StyleStack) :
    Element × StyleStack :=
  match cls with
  | .paragraph =>
    let (st, ss') := enter_style c ss "markdown.paragraph"
    (.paragraph st (newText st), ss')
  | .heading =>
    let t := newText ss.current
    let (_, ss') := enter_style c ss ("markdown.h" ++ toString lvl)
    (.heading lvl t, ss')
  | .codeBlock =>
    let (st, ss') := enter_style c ss "markdown.code_block"
    (.codeBlock st (newText st), ss')
  | .blockQuote =>
    let (_, ss') := enter_style c ss "markdown.block_quote"
    (.blockQuote [], ss')
  | .horizontalRule => (.horizontalRule, ss)
  | .listElement => (.listElement [], ss)
  | .listItem =>
    let (st, ss') := enter_style c ss "markdown.item"
    (.listItem st (newText st) [], ss')
  | .unknown => (.unknown, ss)

/-! ## The walker state machine -/

/-- The mutable state of one `Markdown.__console__` invocation: the
`MarkdownContext`'s style stack and element stack (lines 176-180, top of
the element stack first) and the loop-local `new_line` flag (line 231). -/
structure MState where
  styleStack : StyleStack
  stack : List Element
  newLine : Bool

/-- `MarkdownContext.on_text` (lines 191-193): dispatch to the top of the
element stack under the current composed style; underflow (`stack.top`
on an empty stack) fails. -/
def onTextTop (s : MState) (text : String) : Option (MState × List RenderItem) :=
  match s.stack with
  | [] => none
  | top :: rest =>
    (elemOnText top s.styleStack.current text).map
      (fun top' => ({ s with stack := top' :: rest }, []))

/-- Inline-span handling for a container span (lines 243-247): push the
style named after the span kind on entering, pop it on leaving. -/
def stepInlineContainer (c : Console) (s : MState) (ev : Event) :
    Option (MState × List RenderItem) :=
  if ev.entering then
    some ({ s with styleStack := (enter_style c s.styleStack ("markdown." ++ ev.t)).2 }, [])
  else
    match s.styleStack.pop with
    | some (_, ss') => some ({ s with styleStack := ss' }, [])
    | none => none

/-- Inline-span handling for a leaf span (lines 248-252): push the style,
write the literal (when truthy) into the enclosing element, pop. -/
def stepInlineLeaf (c : Console) (s : MState) (ev : Event) :
    Option (MState × List RenderItem) :=
  let ss1 := (enter_style c s.styleStack ("markdown." ++ ev.t)).2
  let s1 : MState := { s with styleStack := ss1 }
  let s2? : Option MState :=
    match ev.literal with
    | some lit => if lit = "" then some s1 else (onTextTop s1 lit).map (·.1)
    | none => some s1
  match s2? with
  | none => none
  | some s2 =>
    match s2.styleStack.pop with
    | some (_, ss') => some ({ s2 with styleStack := ss' }, [])
    | none => none

/-- Container-enter for an element kind (lines 256-259): create the
element variant, push it, run its enter hook. -/
def stepEnter (c : Console) (s : MState) (ev : Event) :
    Option (MState × List RenderItem) :=
  let e := (elemEnter c (classOf ev.t) ev.level s.styleStack).1
  let ss' := (elemEnter c (classOf ev.t) ev.level s.styleStack).2
  some (⟨ss', e :: s.stack, s.newLine⟩, [])

/-- Container-leave for an element kind (lines 260-273): pop the element;
if the stack is non-empty ask the new top whether to absorb it,
otherwise emit at top level; track the `new_line` request. -/
def stepClose (rl : RenderLines) (c : Console) (w : Int) (s : MState) :
    Option (MState × List RenderItem) :=
  match s.stack with
  | [] => none
  | e :: rest =>
    match rest with
    | top :: rest2 =>
      let top' := (onChildClose top e).1
      if (onChildClose top e).2 then
        match Element.console rl c w e, elemLeave e s.styleStack with
        | some out, some ss' =>
          some (⟨ss', top' :: rest2, e.newLine⟩,
                (if s.newLine then [RenderItem.seg "\n" none] else []) ++ out)
        | _, _ => none
      else
        match elemLeave e s.styleStack with
        | some ss' => some (⟨ss', top' :: rest2, e.newLine⟩, [])
        | none => none
    | [] =>
      match elemLeave e s.styleStack with
      | none => none
      | some ss' =>
        match Element.console rl c w e with
        | some out => some (⟨ss', [], e.newLine⟩, out)
        | none => none

/-- Leaf visit for an element kind (lines 274-286): create, push, enter,
feed the trimmed literal, pop, emit with the blank-line-spacing rule,
leave. -/
def stepLeaf (rl : RenderLines) (c : Console) (w : Int) (s : MState) (ev : Event) :
    Option (MState × List RenderItem) :=
  let e := (elemEnter c (classOf ev.t) ev.level s.styleStack).1
  let ss1 := (elemEnter c (classOf ev.t) ev.level s.styleStack).2
  let e2? : Option Element :=
    match ev.literal with
    | some lit => if lit = "" then some e else elemOnText e ss1.current (pyRstrip lit)
    | none => some e
  match e2? with
  | none => none
  | some e2 =>
    match Element.console rl c w e2, elemLeave e2 ss1 with
    | some out, some ss' =>
      some (⟨ss', s.stack, e2.newLine⟩,
            (if s.newLine then [RenderItem.seg "\n" none] else []) ++ out)
    | _, _ => none

/-- One iteration of the walker loop (markdown.py lines 232-286). -/
def step (rl : RenderLines) (c : Console) (w : Int) (s : MState) (ev : Event) :
    Option (MState × List RenderItem) :=
  match evKind ev.t with
  | .text =>
    match ev.literal with
    | some lit => onTextTop s lit
    | none => none
  | .softbreak =>
    if ev.entering then onTextTop s "\n" else some (s, [])
  | .inline =>
    if ev.isContainer then stepInlineContainer c s ev else stepInlineLeaf c s ev
  | .other =>
    if ev.isContainer then
      if ev.entering then stepEnter c s ev else stepClose rl c w s
    else stepLeaf rl c w s ev

/-- Run the walker over a list of events, threading the state and
concatenating the yielded renderables. -/
def processEvents (rl : RenderLines) (c : Console) (w : Int) :
    MState → List Event → Option (MState × List RenderItem)
  | s, [] => some (s, [])
  | s, ev :: evs =>
    match step rl c w s ev with
    | none => none
    | some (s1, out1) =>
      match processEvents rl c w s1 evs with
      | none => none
      | some (s2, out2) => some (s2, out1 ++ out2)

/-- The state a fresh `MarkdownContext` starts with (lines 176-180):
style stack seeded with the console's current style, empty element
stack, and `new_line = False` (line 231). -/
def initState (c : Console) : MState :=
  ⟨⟨c.current_style, []⟩, [], false⟩

/-- `Markdown.__console__` applied to a parsed root node: process its
flattened traversal from the initial state and collect the output. -/
def markdownConsole (rl : RenderLines) (c : Console) (w : Int) (root : Node) :
    Option (List RenderItem) :=
  (processEvents rl c w (initState c) root.walk).map (·.2)

/-! ## Document shorthands used by concrete scenarios -/

/-- A commonmark text leaf. -/
def textNode (s : String) : Node := .mk "text" false (some s) 0 []

/-- A paragraph containing one text leaf. -/
def paraNode (s : String) : Node := .mk "paragraph" true none 0 [textNode s]

/-- The kind tag of a node. -/
def Node.kind : Node → String
  | .mk t _ _ _ _ => t

/-- A document containing a block quote of two paragraphs followed by a
top-level paragraph. -/
def quoteDoc (tA tB tC : String) : Node :=
  .mk "document" true none 0
    [.mk "block_quote" true none 0 [paraNode tA, paraNode tB], paraNode tC]

/-- The composed style of text inside a top-level paragraph. -/
def pSt (c : Console) : Style := resolveStyle c "markdown.paragraph" ++ c.current_style

/-- The composed style of text inside a paragraph nested in a block
quote. -/
def qSt (c : Console) : Style :=
  resolveStyle c "markdown.paragraph" ++ (resolveStyle c "markdown.block_quote" ++ c.current_style)

mutual

/-- Whether a node's whole subtree consists of inline spans and the text
and soft breaks they carry. -/
def inlineOnly : Node → Bool
  | .mk t _ _ _ cs => (isInline t || t = "text" || t = "softbreak") && inlineOnlyList cs

def inlineOnlyList : List Node → Bool
  | [] => true
  | n :: ns => inlineOnly n && inlineOnlyList ns

end

/-- The node kinds registered in `Markdown.elements` (lines 209-217). -/
def registeredKinds : List String :=
  ["paragraph", "heading", "code_block", "block_quote", "thematic_break", "list", "item"]

/-! ## Concrete instances used by witnesses -/

/-- A trivial external line renderer. -/
def rl0 : RenderLines := fun _ _ _ => []

/-- A console with an empty style registry and a neutral current style. -/
def cEmpty : Console := ⟨[], []⟩

/-- A console with a small registry, including the `"none"` entry. -/
def cDemo : Console :=
  ⟨[("none", []), ("markdown.paragraph", [("color", "green")])], [("base", "b")]⟩

/-- A symmetric nesting of inline spans: strong inside emphasis. -/
def emphNest : Node :=
  .mk "emph" true none 0 [.mk "strong" true none 0 [textNode "x"]]

/-- A walker state with one open (unknown) container. -/
def s6 : MState := ⟨⟨[], []⟩, [Element.unknown], false⟩

/-! ## Helper lemmas: stack-shape invariant of the walker -/

/-- Relation between walker states before and after processing a balanced
stretch of events: the style stack is restored exactly, the element
stack keeps its shape (same per-position style depths, identical below
the top), and a top `UnknownElement` stays an `UnknownElement`. -/
def StackInv (s s' : MState) : Prop :=
  s'.styleStack = s.styleStack ∧
  s'.stack.map styleDepth = s.stack.map styleDepth ∧
  s'.stack.tail = s.stack.tail ∧
  (s.stack.head? = some Element.unknown → s'.stack.head? = some Element.unknown)

theorem stackInv_refl (s : MState) : StackInv s s :=
  ⟨rfl, rfl, rfl, fun h => h⟩

theorem stackInv_trans {s1 s2 s3 : MState} (h1 : StackInv s1 s2) (h2 : StackInv s2 s3) :
    StackInv s1 s3 :=
  ⟨h2.1.trans h1.1, h2.2.1.trans h1.2.1, h2.2.2.1.trans h1.2.2.1,
   fun h => h2.2.2.2 (h1.2.2.2 h)⟩

theorem elemOnText_spec {e : Element} {cur : Style} {txt : String} {e' : Element}
    (h : elemOnText e cur txt = some e') :
    styleDepth e' = styleDepth e ∧ (e = .unknown → e' = .unknown) := by
  cases e <;> simp only [elemOnText, Option.some.injEq] at h
  case blockQuote => exact Option.noConfusion h
  all_goals subst h
  all_goals simp [styleDepth]

theorem onChildClose_spec (p ch : Element) :
    styleDepth (onChildClose p ch).1 = styleDepth p ∧
    (p = .unknown → (onChildClose p ch).1 = .unknown ∧ (onChildClose p ch).2 = true) := by
  cases p <;> simp [onChildClose, styleDepth]

theorem elemLeave_depth0 {e : Element} (ss : StyleStack) (h : styleDepth e = 0) :
    elemLeave e ss = some ss := by
  cases e <;> simp_all [styleDepth, elemLeave]

theorem elemLeave_depth1 {e : Element} (ss : StyleStack) (st : Style) (h : styleDepth e = 1) :
    elemLeave e (ss.push st) = some ss := by
  cases e <;> simp_all [styleDepth, elemLeave, StyleStack.push, StyleStack.pop]

theorem elemEnter_spec (c : Console) (cls : ElemClass) (lvl : Int) (ss : StyleStack) :
    (styleDepth (elemEnter c cls lvl ss).1 = 0 ∧ (elemEnter c cls lvl ss).2 = ss) ∨
    (styleDepth (elemEnter c cls lvl ss).1 = 1 ∧
      ∃ st, (elemEnter c cls lvl ss).2 = ss.push st) := by
  cases cls <;> simp [elemEnter, enter_style, styleDepth]

theorem onTextTop_spec {s : MState} {txt : String} {s' : MState} {out : List RenderItem}
    (h : onTextTop s txt = some (s', out)) : StackInv s s' ∧ out = [] := by
  unfold onTextTop at h
  split at h
  · exact Option.noConfusion h
  next top rest hs =>
    simp only [Option.map_eq_some', Prod.mk.injEq] at h
    obtain ⟨top', he, h1, h2⟩ := h
    obtain ⟨hd, hu⟩ := elemOnText_spec he
    subst h1
    refine ⟨⟨rfl, ?_, ?_, ?_⟩, h2.symm⟩
    · simp [hs, hd]
    · simp [hs]
    · intro hh
      rw [hs] at hh
      simp only [List.head?_cons, Option.some.injEq] at hh
      simp [hu hh]

theorem processEvents_nil (rl : RenderLines) (c : Console) (w : Int) (s : MState) :
    processEvents rl c w s [] = some (s, []) := rfl

theorem processEvents_cons {rl : RenderLines} {c : Console} {w : Int} {s : MState}
    {ev : Event} {evs : List Event} {s' : MState} {out : List RenderItem}
    (h : processEvents rl c w s (ev :: evs) = some (s', out)) :
    ∃ s1 o1 o2, step rl c w s ev = some (s1, o1) ∧
      processEvents rl c w s1 evs = some (s', o2) ∧ out = o1 ++ o2 := by
  unfold processEvents at h
  split at h
  · exact Option.noConfusion h
  next s1 o1 heq =>
    split at h
    · exact Option.noConfusion h
    next s2 o2 heq2 =>
      simp only [Option.some.injEq, Prod.mk.injEq] at h
      obtain ⟨h3, h4⟩ := h
      exact ⟨s1, o1, o2, heq, by rw [← h3]; exact heq2, h4.symm⟩

theorem processEvents_append {rl : RenderLines} {c : Console} {w : Int}
    {xs ys : List Event} {s s' : MState} {out : List RenderItem}
    (h : processEvents rl c w s (xs ++ ys) = some (s', out)) :
    ∃ s1 o1 o2, processEvents rl c w s xs = some (s1, o1) ∧
      processEvents rl c w s1 ys = some (s', o2) ∧ out = o1 ++ o2 := by
  induction xs generalizing s out with
  | nil =>
    exact ⟨s, [], out, rfl, h, rfl⟩
  | cons ev evs ih =>
    rw [List.cons_append] at h
    obtain ⟨s1, o1, o2, h1, h2, h3⟩ := processEvents_cons h
    obtain ⟨sm, oa, ob, ha, hb, hc⟩ := ih h2
    refine ⟨sm, o1 ++ oa, ob, ?_, hb, by simp [h3, hc]⟩
    unfold processEvents
    rw [h1]
    simp only [ha]

theorem pop_push (ss : StyleStack) (st : Style) : (ss.push st).pop = some (st, ss) := rfl

theorem stepInlineLeaf_inv {c : Console} {s : MState} {ev : Event} {s' : MState}
    {out : List RenderItem} (h : stepInlineLeaf c s ev = some (s', out)) :
    StackInv s s' ∧ out = [] := by
  unfold stepInlineLeaf at h
  simp only at h
  split at h
  · exact Option.noConfusion h
  next s2 heq =>
    split at h
    swap
    · exact Option.noConfusion h
    next st ss' heq2 =>
      simp only [Option.some.injEq, Prod.mk.injEq] at h
      obtain ⟨h1, h2⟩ := h
      have hs2 : StackInv { s with styleStack :=
          (enter_style c s.styleStack ("markdown." ++ ev.t)).2 } s2 := by
        split at heq
        · split at heq
          · simp only [Option.some.injEq] at heq
            exact heq ▸ stackInv_refl _
          · simp only [Option.map_eq_some'] at heq
            obtain ⟨⟨sx, ox⟩, hx, hx2⟩ := heq
            exact hx2 ▸ (onTextTop_spec hx).1
        · simp only [Option.some.injEq] at heq
          exact heq ▸ stackInv_refl _
      have hss : s2.styleStack = s.styleStack.push (resolveStyle c ("markdown." ++ ev.t)) :=
        hs2.1
      rw [hss, pop_push] at heq2
      simp only [Option.some.injEq, Prod.mk.injEq] at heq2
      refine ⟨?_, h2.symm⟩
      rw [← h1]
      exact ⟨by simpa using heq2.2.symm, hs2.2.1, hs2.2.2.1, hs2.2.2.2⟩

/-- Closing an element undoes exactly the style pushes its enter hook
made: `elemLeave` applied to any element of the same style depth
restores the style stack `elemEnter` started from. -/
theorem elemLeave_enter_inverse {c : Console} {cls : ElemClass} {lvl : Int}
    {ss0 : StyleStack} {e2 : Element} {ss' : StyleStack}
    (hdep : styleDepth e2 = styleDepth (elemEnter c cls lvl ss0).1)
    (hl : elemLeave e2 (elemEnter c cls lvl ss0).2 = some ss') : ss' = ss0 := by
  rcases elemEnter_spec c cls lvl ss0 with ⟨hd0, he0⟩ | ⟨hd1, st, he1⟩
  · rw [he0, elemLeave_depth0 _ (hdep.trans hd0)] at hl
    simp only [Option.some.injEq] at hl
    exact hl.symm
  · rw [he1, elemLeave_depth1 _ _ (hdep.trans hd1)] at hl
    simp only [Option.some.injEq] at hl
    exact hl.symm

theorem stepLeaf_inv {rl : RenderLines} {c : Console} {w : Int} {s : MState} {ev : Event}
    {s' : MState} {out : List RenderItem} (h : stepLeaf rl c w s ev = some (s', out)) :
    StackInv s s' := by
  unfold stepLeaf at h
  simp only at h
  split at h
  · exact Option.noConfusion h
  next e2 heq =>
    split at h
    swap
    · exact Option.noConfusion h
    next o2 ss' ho hl =>
      simp only [Option.some.injEq, Prod.mk.injEq] at h
      obtain ⟨h1, h2⟩ := h
      have hdep : styleDepth e2 =
          styleDepth (elemEnter c (classOf ev.t) ev.level s.styleStack).1 := by
        split at heq
        · split at heq
          · simp only [Option.some.injEq] at heq; rw [← heq]
          · exact (elemOnText_spec heq).1
        · simp only [Option.some.injEq] at heq; rw [← heq]
      have hssr : ss' = s.styleStack := elemLeave_enter_inverse hdep hl
      rw [← h1, hssr]
      exact ⟨rfl, rfl, rfl, fun hh => hh⟩

theorem step_noncontainer_inv {rl : RenderLines} {c : Console} {w : Int} {s : MState}
    {ev : Event} {s' : MState} {out : List RenderItem} (hc : ev.isContainer = false)
    (h : step rl c w s ev = some (s', out)) : StackInv s s' := by
  unfold step at h
  cases hk : evKind ev.t
  case text =>
    simp only [hk] at h
    split at h
    · exact (onTextTop_spec h).1
    · exact Option.noConfusion h
  case softbreak =>
    simp only [hk] at h
    split at h
    · exact (onTextTop_spec h).1
    · simp only [Option.some.injEq, Prod.mk.injEq] at h
      exact h.1 ▸ stackInv_refl s
  case inline =>
    simp only [hk, hc, if_false] at h
    exact (stepInlineLeaf_inv h).1
  case other =>
    simp only [hk, hc, if_false] at h
    exact stepLeaf_inv h

/-- Closing a container element restores the walker state shape of the
moment just before the matching enter, whatever happened to the element
in between (text appends, absorbed children), provided its style depth
is unchanged — which the mutation operations guarantee. -/
theorem stepClose_inv {rl : RenderLines} {c : Console} {w : Int} {cls : ElemClass}
    {lvl : Int} {s0 s2 s' : MState} {eC : Element} {out : List RenderItem}
    (hstk : s2.stack = eC :: s0.stack)
    (hss : s2.styleStack = (elemEnter c cls lvl s0.styleStack).2)
    (hdep : styleDepth eC = styleDepth (elemEnter c cls lvl s0.styleStack).1)
    (h : stepClose rl c w s2 = some (s', out)) : StackInv s0 s' := by
  unfold stepClose at h
  rw [hstk] at h
  simp only at h
  cases hs0 : s0.stack with
  | cons top rest2 =>
    rw [hs0] at h
    simp only at h
    split at h
    · -- flush branch
      split at h
      case h_2 => exact Option.noConfusion h
      next o0 ss' ho hl =>
        simp only [Option.some.injEq, Prod.mk.injEq] at h
        obtain ⟨h1, _⟩ := h
        have hssr : ss' = s0.styleStack :=
          elemLeave_enter_inverse hdep (hss ▸ hl)
        rw [← h1, hssr]
        refine ⟨rfl, ?_, by simp [hs0], ?_⟩
        · simp [hs0, (onChildClose_spec top eC).1]
        · intro hh
          rw [hs0] at hh
          simp only [List.head?_cons, Option.some.injEq] at hh
          simp [((onChildClose_spec top eC).2 hh).1]
    · -- absorb branch
      split at h
      case h_2 => exact Option.noConfusion h
      next ss' hl =>
        simp only [Option.some.injEq, Prod.mk.injEq] at h
        obtain ⟨h1, _⟩ := h
        have hssr : ss' = s0.styleStack :=
          elemLeave_enter_inverse hdep (hss ▸ hl)
        rw [← h1, hssr]
        refine ⟨rfl, ?_, by simp [hs0], ?_⟩
        · simp [hs0, (onChildClose_spec top eC).1]
        · intro hh
          rw [hs0] at hh
          simp only [List.head?_cons, Option.some.injEq] at hh
          simp [((onChildClose_spec top eC).2 hh).1]
  | nil =>
    rw [hs0] at h
    simp only at h
    split at h
    · exact Option.noConfusion h
    next ss' hl =>
      split at h
      case h_2 => exact Option.noConfusion h
      next o0 ho =>
        simp only [Option.some.injEq, Prod.mk.injEq] at h
        obtain ⟨h1, _⟩ := h
        have hssr : ss' = s0.styleStack := elemLeave_enter_inverse hdep (hss ▸ hl)
        rw [← h1, hssr]
        exact ⟨rfl, by simp [hs0], by simp [hs0], by intro hh; rw [hs0] at hh; exact absurd hh (by simp)⟩

theorem sizeOf_pos_nodes (ns : List Node) : 0 < sizeOf ns := by
  cases ns <;> simp

/-- Main balance induction: processing the flattened traversal of any
forest restores the walker's stack shape. -/
theorem walkAll_inv_aux (rl : RenderLines) (c : Console) (w : Int) :
    ∀ (N : Nat) (ns : List Node), sizeOf ns ≤ N →
      ∀ (s s' : MState) (out : List RenderItem),
        processEvents rl c w s (walkAll ns) = some (s', out) → StackInv s s' := by
  intro N
  induction N with
  | zero =>
    intro ns hle
    exact absurd hle (by have hp := sizeOf_pos_nodes ns; omega)
  | succ N ih =>
    intro ns hle s s' out h
    cases ns with
    | nil =>
      simp only [walkAll, processEvents_nil, Option.some.injEq, Prod.mk.injEq] at h
      obtain ⟨h1, _⟩ := h
      subst h1
      exact stackInv_refl s
    | cons n rest =>
      obtain ⟨t, cont, lit, lvl, cs⟩ := n
      have hsz1 : sizeOf rest ≤ N := by
        simp only [List.cons.sizeOf_spec, Node.mk.sizeOf_spec] at hle; omega
      have hsz2 : sizeOf cs ≤ N := by
        simp only [List.cons.sizeOf_spec, Node.mk.sizeOf_spec] at hle; omega
      simp only [walkAll] at h
      obtain ⟨s1, o1, o2, h1, h2, _⟩ := processEvents_append h
      have inv2 : StackInv s1 s' := ih rest hsz1 s1 s' o2 h2
      have inv1 : StackInv s s1 := by
        cases cont with
        | false =>
          rw [show (Node.mk t false lit lvl cs).walk = [⟨t, false, lit, lvl, true⟩]
                from by simp [Node.walk]] at h1
          obtain ⟨sE, oE, oR, hstep, hrest, _⟩ := processEvents_cons h1
          simp only [processEvents_nil, Option.some.injEq, Prod.mk.injEq] at hrest
          obtain ⟨hE1, _⟩ := hrest
          subst hE1
          exact step_noncontainer_inv rfl hstep
        | true =>
          rw [show (Node.mk t true lit lvl cs).walk =
                ⟨t, true, lit, lvl, true⟩ :: (walkAll cs ++ [⟨t, true, lit, lvl, false⟩])
                from by simp [Node.walk]] at h1
          obtain ⟨sE, oE, oM, hstep1, hmid, _⟩ := processEvents_cons h1
          obtain ⟨sC, oC, oL, hcs, hlast, _⟩ := processEvents_append hmid
          have invC : StackInv sE sC := ih cs hsz2 sE sC oC hcs
          obtain ⟨s1', oL1, oL2, hstep2, hnil, _⟩ := processEvents_cons hlast
          simp only [processEvents_nil, Option.some.injEq, Prod.mk.injEq] at hnil
          obtain ⟨hE1, _⟩ := hnil
          subst hE1
          cases hk : evKind t with
          | text =>
            have invE : StackInv s sE := by
              unfold step at hstep1; simp only [hk] at hstep1
              split at hstep1
              · exact (onTextTop_spec hstep1).1
              · exact Option.noConfusion hstep1
            have invL : StackInv sC s1' := by
              unfold step at hstep2; simp only [hk] at hstep2
              split at hstep2
              · exact (onTextTop_spec hstep2).1
              · exact Option.noConfusion hstep2
            exact stackInv_trans (stackInv_trans invE invC) invL
          | softbreak =>
            have invE : StackInv s sE := by
              unfold step at hstep1; simp only [hk] at hstep1
              exact (onTextTop_spec hstep1).1
            have invL : StackInv sC s1' := by
              unfold step at hstep2
              simp only [hk] at hstep2
              have hq : (some (sC, []) : Option (MState × List RenderItem)) =
                  some (s1', oL1) := hstep2
              simp only [Option.some.injEq, Prod.mk.injEq] at hq
              obtain ⟨hq1, _⟩ := hq
              subst hq1
              exact stackInv_refl sC
            exact stackInv_trans (stackInv_trans invE invC) invL
          | inline =>
            unfold step at hstep1 hstep2
            simp only [hk] at hstep1 hstep2
            have hq1 : (some ({ s with styleStack :=
                (s.styleStack.push (resolveStyle c ("markdown." ++ t))) }, []) :
                Option (MState × List RenderItem)) = some (sE, oE) := hstep1
            simp only [Option.some.injEq, Prod.mk.injEq] at hq1
            obtain ⟨hsE, _⟩ := hq1
            subst hsE
            have hCss : sC.styleStack =
                s.styleStack.push (resolveStyle c ("markdown." ++ t)) := invC.1
            have hq2 : (match sC.styleStack.pop with
                | some (_, ss') => some ({ sC with styleStack := ss' }, [])
                | none => none) = some (s1', oL1) := hstep2
            rw [hCss, pop_push] at hq2
            simp only [Option.some.injEq, Prod.mk.injEq] at hq2
            obtain ⟨hq3, _⟩ := hq2
            subst hq3
            exact ⟨rfl, invC.2.1, invC.2.2.1, invC.2.2.2⟩
          | other =>
            unfold step at hstep1 hstep2
            simp only [hk] at hstep1 hstep2
            have hq1 : (some (⟨(elemEnter c (classOf t) lvl s.styleStack).2,
                (elemEnter c (classOf t) lvl s.styleStack).1 :: s.stack, s.newLine⟩, []) :
                Option (MState × List RenderItem)) = some (sE, oE) := hstep1
            simp only [Option.some.injEq, Prod.mk.injEq] at hq1
            obtain ⟨hsE, _⟩ := hq1
            subst hsE
            have hq2 : stepClose rl c w sC = some (s1', oL1) := hstep2
            have htl : sC.stack.tail = s.stack := invC.2.2.1
            have hmp : sC.stack.map styleDepth =
                styleDepth (elemEnter c (classOf t) lvl s.styleStack).1 ::
                  s.stack.map styleDepth := invC.2.1
            cases hsc : sC.stack with
            | nil => rw [hsc] at hmp; exact absurd hmp (by simp)
            | cons eC tl =>
              rw [hsc] at htl hmp
              simp only [List.tail_cons] at htl
              simp only [List.map_cons, List.cons.injEq] at hmp
              exact stepClose_inv (hsc.trans (by rw [htl])) invC.1 hmp.1 hq2
      exact stackInv_trans inv1 inv2

/-- Stack-shape preservation over the traversal of a single node. -/
theorem walk_inv (rl : RenderLines) (c : Console) (w : Int) (n : Node)
    {s s' : MState} {out : List RenderItem}
    (h : processEvents rl c w s n.walk = some (s', out)) : StackInv s s' := by
  have h' : processEvents rl c w s (walkAll [n]) = some (s', out) := by
    simp only [walkAll, List.append_nil]
    exact h
  exact walkAll_inv_aux rl c w (sizeOf [n]) [n] le_rfl s s' out h'

/-! ## Further helper lemmas -/

theorem processEvents_cons_mk {rl : RenderLines} {c : Console} {w : Int} {s s1 s2 : MState}
    {ev : Event} {evs : List Event} {o1 o2 : List RenderItem}
    (h1 : step rl c w s ev = some (s1, o1))
    (h2 : processEvents rl c w s1 evs = some (s2, o2)) :
    processEvents rl c w s (ev :: evs) = some (s2, o1 ++ o2) := by
  unfold processEvents
  rw [h1]
  simp only [h2]

theorem processEvents_append_mk {rl : RenderLines} {c : Console} {w : Int}
    {s s1 s2 : MState} {xs ys : List Event} {o1 o2 : List RenderItem}
    (h1 : processEvents rl c w s xs = some (s1, o1))
    (h2 : processEvents rl c w s1 ys = some (s2, o2)) :
    processEvents rl c w s (xs ++ ys) = some (s2, o1 ++ o2) := by
  induction xs generalizing s o1 with
  | nil =>
    rw [processEvents_nil] at h1
    simp only [Option.some.injEq, Prod.mk.injEq] at h1
    obtain ⟨ha, hb⟩ := h1
    subst ha; subst hb
    simpa using h2
  | cons ev evs ih =>
    obtain ⟨sm, oa, ob, ha, hb, hc⟩ := processEvents_cons h1
    subst hc
    rw [List.cons_append]
    have := processEvents_cons_mk ha (ih hb)
    simpa [List.append_assoc] using this

theorem strRepeatN_length (s : String) : ∀ n, (strRepeatN s n).length = n * s.length := by
  intro n
  induction n with
  | zero => simp [strRepeatN]
  | succ k ih => simp [strRepeatN, String.length_append, ih, Nat.succ_mul, Nat.add_comm]

theorem bulletLines_eq (ls : List (List Seg)) : ∀ i, bulletLines i ls =
    ((ls.enumFrom i).map (fun p =>
      (if p.1 = 0 then [RenderItem.seg " • " none]
       else [RenderItem.seg (pyStrMul " " 3) none])
        ++ p.2.map (fun sg => RenderItem.seg sg.1 sg.2)
        ++ [RenderItem.seg "\n" none])).flatten := by
  induction ls with
  | nil => intro i; rfl
  | cons l rest ih =>
    intro i
    simp only [bulletLines, List.enumFrom, List.map_cons, List.flatten, ih (i + 1)]

theorem evKind_inline {t : String} (h : isInline t = true) : evKind t = .inline := by
  simp only [isInline, Bool.or_eq_true, decide_eq_true_eq] at h
  rcases h with (h | h) | h <;> subst h <;> rfl

/-! ## Claim theorems -/

/-- C3 (amended): for every non-negative `max_width`, a horizontal rule
renders exactly one segment whose text is a line of rule characters of
length exactly `max_width` followed by a single newline, carrying the
style the console resolves for `markdown.hr`; the rule's `new_line`
flag is false, so after flushing it the walker emits no blank-line
segment before the next element. -/
theorem c3_horizontal_rule (rl : RenderLines) (c : Console) (w : Int) (h : 0 ≤ w) :
    Element.console rl c w Element.horizontalRule =
      some [RenderItem.seg (pyStrMul hrChar w ++ "\n") (c.get_style "markdown.hr")] ∧
    ((pyStrMul hrChar w).length : Int) = w ∧
    Element.newLine Element.horizontalRule = false ∧
    (∀ (s : MState) (lit : Option String) (lvl : Int),
      step rl c w s ⟨"thematic_break", false, lit, lvl, true⟩ =
        some ({ s with newLine := false },
          (if s.newLine then [RenderItem.seg "\n" none] else []) ++
            [RenderItem.seg (pyStrMul hrChar w ++ "\n") (c.get_style "markdown.hr")])) := by
  refine ⟨rfl, ?_, rfl, ?_⟩
  · rw [pyStrMul, strRepeatN_length]
    have h1 : hrChar.length = 1 := rfl
    rw [h1, Nat.mul_one]
    exact_mod_cast Int.toNat_of_nonneg h
  · intro s lit lvl
    unfold step
    show stepLeaf rl c w s ⟨"thematic_break", false, lit, lvl, true⟩ = _
    unfold stepLeaf
    cases lit with
    | none => rfl
    | some l =>
      by_cases hl : l = ""
      · subst hl; rfl
      · simp only [if_neg hl]
        rfl

/-- C3 counterexample to the claim as stated: at `max_width = -1` the
rule body is the empty string, whose length is `0`, not `-1`. -/
theorem c3_cex_negative_width :
    Element.console rl0 cEmpty (-1) Element.horizontalRule =
      some [RenderItem.seg (pyStrMul hrChar (-1) ++ "\n") none] ∧
    pyStrMul hrChar (-1) = "" ∧
    ((pyStrMul hrChar (-1)).length : Int) ≠ -1 := by
  exact ⟨rfl, rfl, by decide⟩

/-- C3 witness at `max_width = 4`. -/
theorem c3_horizontal_rule_witness :
    (0 : Int) ≤ 4 ∧
    Element.console rl0 cEmpty 4 Element.horizontalRule =
      some [RenderItem.seg (pyStrMul hrChar 4 ++ "\n") (cEmpty.get_style "markdown.hr")] ∧
    ((pyStrMul hrChar 4).length : Int) = 4 :=
  ⟨by decide, (c3_horizontal_rule rl0 cEmpty 4 (by decide)).1,
    (c3_horizontal_rule rl0 cEmpty 4 (by decide)).2.1⟩

/-- C4: every heading renders its accumulated text center-justified; the
output is a bordered panel with border style `markdown.h1.border`
exactly when the level is 1, and a plain centered text otherwise — a
panel never appears in the output of a heading of another level. -/
theorem c4_heading_panel (rl : RenderLines) (c : Console) (w : Int) (lvl : Int)
    (t : RichText) :
    Element.console rl c w (Element.heading lvl t) =
      some [if lvl = 1 then
              RenderItem.panel { t with justify := some "center" } "markdown.h1.border"
            else RenderItem.txt { t with justify := some "center" }] ∧
    ({ t with justify := some "center" } : RichText).justify = some "center" ∧
    (Element.console rl c w (Element.heading lvl t) =
        some [RenderItem.panel { t with justify := some "center" } "markdown.h1.border"]
      ↔ lvl = 1) ∧
    (∀ (t2 : RichText) (bs : String) (out : List RenderItem),
      Element.console rl c w (Element.heading lvl t) = some out →
      RenderItem.panel t2 bs ∈ out → lvl = 1) := by
  by_cases h1 : lvl = 1
  · subst h1
    refine ⟨by simp [Element.console], rfl, ?_, ?_⟩
    · simp [Element.console]
    · intro t2 bs out hout hmem
      rfl
  · refine ⟨by simp [Element.console, h1], rfl, ?_, ?_⟩
    · constructor
      · intro hcon
        rw [show Element.console rl c w (Element.heading lvl t) =
              some [RenderItem.txt { t with justify := some "center" }]
            from by simp [Element.console, h1]] at hcon
        simp at hcon
      · intro hc; exact absurd hc h1
    · intro t2 bs out hout hmem
      rw [show Element.console rl c w (Element.heading lvl t) =
            some [RenderItem.txt { t with justify := some "center" }]
          from by simp [Element.console, h1]] at hout
      simp only [Option.some.injEq] at hout
      subst hout
      simp at hmem

/-- C4 witness at levels 2 and 1. -/
theorem c4_heading_panel_witness :
    Element.console rl0 cEmpty 5 (Element.heading 2 ⟨[], [], none⟩) =
      some [RenderItem.txt ⟨[], [], some "center"⟩] ∧
    Element.console rl0 cEmpty 5 (Element.heading 1 ⟨[], [], none⟩) =
      some [RenderItem.panel ⟨[], [], some "center"⟩ "markdown.h1.border"] := by
  constructor
  · have h := (c4_heading_panel rl0 cEmpty 5 2 ⟨[], [], none⟩).1
    simpa using h
  · exact (c4_heading_panel rl0 cEmpty 5 1 ⟨[], [], none⟩).2.2.1.mpr rfl

/-- C5: `render_bullet` lays the collected children out at
`max_width - 3` under the item's style, prefixes the first produced
line with the 3-character bullet `" • "`, every later line with exactly
3 spaces, and terminates every line with a newline segment. -/
theorem c5_list_item_bullet (rl : RenderLines) (w : Int) (st : Style) (els : List Element) :
    renderBullet rl w st els =
      ((rl els (w - 3) st).enum.map (fun p =>
        (if p.1 = 0 then [RenderItem.seg " • " none]
         else [RenderItem.seg (pyStrMul " " 3) none])
          ++ p.2.map (fun sg => RenderItem.seg sg.1 sg.2)
          ++ [RenderItem.seg "\n" none])).flatten ∧
    " • ".length = 3 ∧ pyStrMul " " 3 = "   " ∧ "   ".length = 3 := by
  refine ⟨?_, by decide, by decide, by decide⟩
  unfold renderBullet
  exact bulletLines_eq _ 0

/-- C8: at every non-positive available width, the rule, heading and
list-item renderers still produce a defined result: the rule body
degenerates to the empty string (one bare newline segment), the heading
still yields its renderable, and the list renders each item through
`render_bullet`, which still lays children out at `max_width - 3` and
produces the prefixed line structure. -/
theorem c8_degenerate_width (rl : RenderLines) (c : Console) (w : Int) (st : Style)
    (t : RichText) (els : List Element) (lvl : Int) (h : w ≤ 0) :
    Element.console rl c w Element.horizontalRule =
      some [RenderItem.seg "\n" (c.get_style "markdown.hr")] ∧
    (Element.console rl c w (Element.heading lvl t)).isSome = true ∧
    Element.console rl c w (Element.listElement [Element.listItem st t els]) =
      some (renderBullet rl w st els) ∧
    renderBullet rl w st els =
      ((rl els (w - 3) st).enum.map (fun p =>
        (if p.1 = 0 then [RenderItem.seg " • " none]
         else [RenderItem.seg (pyStrMul " " 3) none])
          ++ p.2.map (fun sg => RenderItem.seg sg.1 sg.2)
          ++ [RenderItem.seg "\n" none])).flatten := by
  have hmul : pyStrMul hrChar w = "" := by
    rw [pyStrMul, Int.toNat_of_nonpos h]
    rfl
  refine ⟨?_, ?_, ?_, ?_⟩
  · show some [RenderItem.seg (pyStrMul hrChar w ++ "\n") (c.get_style "markdown.hr")] = _
    rw [hmul]
    rfl
  · by_cases h1 : lvl = 1 <;> simp [Element.console, h1]
  · simp [Element.console, bulletSeq]
  · unfold renderBullet
    exact bulletLines_eq _ 0

/-- C8 witness at width `-2`. -/
theorem c8_degenerate_width_witness :
    (-2 : Int) ≤ 0 ∧
    Element.console rl0 cEmpty (-2) Element.horizontalRule =
      some [RenderItem.seg "\n" (cEmpty.get_style "markdown.hr")] ∧
    Element.console rl0 cEmpty (-2)
        (Element.listElement [Element.listItem [] ⟨[], [], none⟩ []]) =
      some (renderBullet rl0 (-2) [] []) :=
  ⟨by decide,
    (c8_degenerate_width rl0 cEmpty (-2) [] ⟨[], [], none⟩ [] 2 (by decide)).1,
    (c8_degenerate_width rl0 cEmpty (-2) [] ⟨[], [], none⟩ [] 2 (by decide)).2.2.1⟩

/-- C9: `enter_style` is total for every style name: the name is resolved
through the registry (falling back to the registry's `"none"` entry,
and to the neutral style, when unknown), the resolved style is pushed,
and the returned style is the composition of the full new stack. -/
theorem c9_enter_style (c : Console) (ss : StyleStack) (name : String) :
    (enter_style c ss name).2 = ss.push (resolveStyle c name) ∧
    (enter_style c ss name).2.entries = resolveStyle c name :: ss.entries ∧
    (enter_style c ss name).1 = StyleStack.current (ss.push (resolveStyle c name)) ∧
    (∀ stn, c.get_style name = some stn → resolveStyle c name = stn) ∧
    (c.get_style name = none →
      resolveStyle c name = (c.get_style "none").getD neutralStyle) := by
  refine ⟨rfl, rfl, rfl, ?_, ?_⟩
  · intro stn hr
    unfold resolveStyle
    rw [hr]
    rfl
  · intro hr
    unfold resolveStyle
    rw [hr]
    rfl

/-- C9 witness: a known name resolves to its registry entry; an unknown
name falls back to the `"none"` entry. -/
theorem c9_enter_style_witness :
    (cDemo.get_style "markdown.paragraph" = some [("color", "green")] ∧
      resolveStyle cDemo "markdown.paragraph" = [("color", "green")]) ∧
    (cDemo.get_style "nope" = none ∧
      resolveStyle cDemo "nope" = (cDemo.get_style "none").getD neutralStyle) ∧
    (enter_style cDemo ⟨[("base", "b")], []⟩ "nope").2.entries =
      resolveStyle cDemo "nope" :: [] :=
  ⟨⟨rfl, (c9_enter_style cDemo ⟨[("base", "b")], []⟩ "markdown.paragraph").2.2.2.1
      [("color", "green")] rfl⟩,
   ⟨rfl, (c9_enter_style cDemo ⟨[("base", "b")], []⟩ "nope").2.2.2.2 rfl⟩,
   (c9_enter_style cDemo ⟨[("base", "b")], []⟩ "nope").2.1⟩

/-- C1: for a block quote containing two paragraphs followed by a
top-level paragraph, the quote's `on_child_close` always returns false
(it collects the child), and the rendered stream replays the two
paragraphs' texts back-to-back with no blank-line segment between
them, while exactly one blank-line segment separates the quote's
output from the following top-level paragraph's output. -/
theorem c1_blockquote_absorbs (rl : RenderLines) (c : Console) (w : Int)
    (tA tB tC : String) :
    (∀ (els : List Element) (child : Element),
      onChildClose (Element.blockQuote els) child =
        (Element.blockQuote (els ++ [child]), false)) ∧
    markdownConsole rl c w (quoteDoc tA tB tC) =
      some [RenderItem.seg "\n" none,
        RenderItem.txt ⟨qSt c, [(tA, qSt c)], none⟩,
        RenderItem.txt ⟨qSt c, [(tB, qSt c)], none⟩,
        RenderItem.seg "\n" none,
        RenderItem.txt ⟨pSt c, [(tC, pSt c)], none⟩] :=
  ⟨fun _ _ => rfl, rfl⟩

/-- C2: the element stack and the style stack are balanced: both have
zero open entries in the initial state, processing the traversal of
any (sub)tree from any state restores the element-stack depth and the
exact style stack — so every push is matched by exactly one pop inside
the same subtree, in LIFO order — and a complete run from the initial
state ends with both stacks back at zero open entries. -/
theorem c2_stack_balance (rl : RenderLines) (c : Console) (w : Int) :
    ((initState c).stack.length = 0 ∧ (initState c).styleStack.entries.length = 0) ∧
    (∀ (n : Node) (s s' : MState) (out : List RenderItem),
      processEvents rl c w s n.walk = some (s', out) →
      s'.stack.length = s.stack.length ∧ s'.styleStack = s.styleStack) ∧
    (∀ (n : Node) (s' : MState) (out : List RenderItem),
      processEvents rl c w (initState c) n.walk = some (s', out) →
      s'.stack = [] ∧ s'.styleStack.entries = []) := by
  refine ⟨⟨rfl, rfl⟩, ?_, ?_⟩
  · intro n s s' out h
    have hi := walk_inv rl c w n h
    refine ⟨?_, hi.1⟩
    have hlen := congrArg List.length hi.2.1
    simpa using hlen
  · intro n s' out h
    have hi := walk_inv rl c w n h
    constructor
    · have hlen := congrArg List.length hi.2.1
      simp only [List.length_map] at hlen
      exact List.length_eq_zero.mp (by simpa [initState] using hlen)
    · rw [hi.1]
      rfl

/-- C2 witness: a complete run over a concrete document returns both
stacks to zero open entries. -/
theorem c2_stack_balance_witness :
    processEvents rl0 cEmpty 7 (initState cEmpty) (quoteDoc "a" "b" "c").walk =
      some (⟨⟨[], []⟩, [], true⟩,
        [RenderItem.seg "\n" none,
         RenderItem.txt ⟨[], [("a", [])], none⟩,
         RenderItem.txt ⟨[], [("b", [])], none⟩,
         RenderItem.seg "\n" none,
         RenderItem.txt ⟨[], [("c", [])], none⟩]) ∧
    (⟨⟨[], []⟩, [], true⟩ : MState).stack = [] ∧
    (⟨⟨[], []⟩, [], true⟩ : MState).styleStack.entries = [] := by
  have hrun : processEvents rl0 cEmpty 7 (initState cEmpty) (quoteDoc "a" "b" "c").walk =
      some (⟨⟨[], []⟩, [], true⟩,
        [RenderItem.seg "\n" none,
         RenderItem.txt ⟨[], [("a", [])], none⟩,
         RenderItem.txt ⟨[], [("b", [])], none⟩,
         RenderItem.seg "\n" none,
         RenderItem.txt ⟨[], [("c", [])], none⟩]) := rfl
  exact ⟨hrun, (c2_stack_balance rl0 cEmpty 7).2.2 (quoteDoc "a" "b" "c") _ _ hrun⟩

/-- C6: inline spans never touch the element stack — a single inline
step leaves the stack's length and everything below the top unchanged
and emits nothing — and a symmetrically nested inline-span subtree,
once closed, leaves the style-context depth (indeed the whole style
stack) unchanged. -/
theorem c6_inline_spans (rl : RenderLines) (c : Console) (w : Int) :
    (∀ (s : MState) (ev : Event) (s' : MState) (out : List RenderItem),
      isInline ev.t = true → step rl c w s ev = some (s', out) →
      s'.stack.length = s.stack.length ∧ s'.stack.tail = s.stack.tail ∧ out = []) ∧
    (∀ (n : Node) (s s' : MState) (out : List RenderItem),
      isInline n.kind = true → inlineOnly n = true →
      processEvents rl c w s n.walk = some (s', out) →
      s'.styleStack = s.styleStack ∧ s'.stack.length = s.stack.length) := by
  constructor
  · intro s ev s' out hi hstep
    have hk := evKind_inline hi
    unfold step at hstep
    simp only [hk] at hstep
    cases hic : ev.isContainer with
    | false =>
      rw [hic] at hstep
      have hstep2 : stepInlineLeaf c s ev = some (s', out) := hstep
      obtain ⟨hinv, hout⟩ := stepInlineLeaf_inv hstep2
      refine ⟨?_, hinv.2.2.1, hout⟩
      have hlen := congrArg List.length hinv.2.1
      simpa using hlen
    | true =>
      rw [hic] at hstep
      have hstep2 : stepInlineContainer c s ev = some (s', out) := hstep
      unfold stepInlineContainer at hstep2
      cases hen : ev.entering with
      | true =>
        rw [hen] at hstep2
        have hq : (some ({ s with styleStack :=
            (enter_style c s.styleStack ("markdown." ++ ev.t)).2 }, []) :
            Option (MState × List RenderItem)) = some (s', out) := hstep2
        simp only [Option.some.injEq, Prod.mk.injEq] at hq
        obtain ⟨h1, h2⟩ := hq
        subst h1
        exact ⟨rfl, rfl, h2.symm⟩
      | false =>
        rw [hen] at hstep2
        have hq : (match s.styleStack.pop with
            | some (_, ss') => some ({ s with styleStack := ss' }, [])
            | none => none) = some (s', out) := hstep2
        cases hp : s.styleStack.pop with
        | none => rw [hp] at hq; exact Option.noConfusion hq
        | some pr =>
          obtain ⟨st0, ss0⟩ := pr
          rw [hp] at hq
          simp only [Option.some.injEq, Prod.mk.injEq] at hq
          obtain ⟨h1, h2⟩ := hq
          subst h1
          exact ⟨rfl, rfl, h2.symm⟩
  · intro n s s' out _ _ h
    have hi := walk_inv rl c w n h
    refine ⟨hi.1, ?_⟩
    have hlen := congrArg List.length hi.2.1
    simpa using hlen

/-- C6 witness: an emphasis-enter step over one open element, and the
complete strong-inside-emphasis subtree, leave the element stack and
(once closed) the style stack as they were. -/
theorem c6_inline_spans_witness :
    isInline "emph" = true ∧ isInline emphNest.kind = true ∧ inlineOnly emphNest = true ∧
    step rl0 cEmpty 0 s6 ⟨"emph", true, none, 0, true⟩ =
      some (⟨⟨[], [[]]⟩, [Element.unknown], false⟩, []) ∧
    (⟨⟨[], [[]]⟩, [Element.unknown], false⟩ : MState).stack.length = s6.stack.length ∧
    processEvents rl0 cEmpty 0 s6 emphNest.walk = some (s6, []) ∧
    s6.styleStack = s6.styleStack := by
  refine ⟨rfl, rfl, rfl, rfl, ?_, rfl, ?_⟩
  · exact ((c6_inline_spans rl0 cEmpty 0).1 s6 ⟨"emph", true, none, 0, true⟩
      ⟨⟨[], [[]]⟩, [Element.unknown], false⟩ [] rfl rfl).1
  · exact ((c6_inline_spans rl0 cEmpty 0).2 emphNest s6 s6 [] rfl rfl rfl).1

/-- C7: a kind tag with no registered variant resolves to the no-op
Unknown variant; its lifecycle hooks are total no-ops, its render
output is empty, visiting such a leaf never fails (and only replays
the requested blank line), entering such a container never fails, and
closing such a container succeeds whenever its children's traversal
succeeded. -/
theorem c7_unknown_fallback (rl : RenderLines) (c : Console) (w : Int) :
    (∀ t, t ∉ registeredKinds → classOf t = ElemClass.unknown) ∧
    (∀ (lvl : Int) (ss : StyleStack), elemEnter c ElemClass.unknown lvl ss =
      (Element.unknown, ss)) ∧
    (∀ (cur : Style) (txt : String), elemOnText Element.unknown cur txt =
      some Element.unknown) ∧
    (∀ ss : StyleStack, elemLeave Element.unknown ss = some ss) ∧
    (Element.console rl c w Element.unknown = some []) ∧
    (∀ (s : MState) (t : String) (lit : Option String) (lvl : Int),
      evKind t = EvKind.other → classOf t = ElemClass.unknown →
      step rl c w s ⟨t, false, lit, lvl, true⟩ =
        some ({ s with newLine := true },
          if s.newLine then [RenderItem.seg "\n" none] else [])) ∧
    (∀ (s : MState) (t : String) (lit : Option String) (lvl : Int),
      evKind t = EvKind.other → classOf t = ElemClass.unknown →
      step rl c w s ⟨t, true, lit, lvl, true⟩ =
        some ({ s with stack := Element.unknown :: s.stack }, [])) ∧
    (∀ (s : MState) (t : String) (lit : Option String) (lvl : Int) (cs : List Node)
        (s1 : MState) (out1 : List RenderItem),
      evKind t = EvKind.other → classOf t = ElemClass.unknown →
      processEvents rl c w { s with stack := Element.unknown :: s.stack } (walkAll cs) =
        some (s1, out1) →
      ∃ s2 out2, processEvents rl c w s (Node.walk (.mk t true lit lvl cs)) =
        some (s2, out2)) := by
  refine ⟨?_, fun _ _ => rfl, fun _ _ => rfl, fun _ => rfl, rfl, ?_, ?_, ?_⟩
  · intro t ht
    simp only [registeredKinds, List.mem_cons, List.not_mem_nil, or_false, not_or] at ht
    obtain ⟨h1, h2, h3, h4, h5, h6, h7⟩ := ht
    simp [classOf, h1, h2, h3, h4, h5, h6, h7]
  · intro s t lit lvl hk hcls
    unfold step
    simp only [hk]
    show stepLeaf rl c w s ⟨t, false, lit, lvl, true⟩ = _
    unfold stepLeaf
    simp only [hcls]
    cases lit with
    | none => simp [elemEnter, Element.console, elemLeave, Element.newLine]
    | some l =>
      by_cases hl : l = ""
      · subst hl
        simp [elemEnter, Element.console, elemLeave, Element.newLine]
      · simp [if_neg hl, elemEnter, elemOnText, Element.console, elemLeave, Element.newLine]
  · intro s t lit lvl hk hcls
    unfold step
    simp only [hk]
    show stepEnter c s ⟨t, true, lit, lvl, true⟩ = _
    unfold stepEnter
    simp only [hcls]
    rfl
  · intro s t lit lvl cs s1 out1 hk hcls hch
    have hwalk : Node.walk (.mk t true lit lvl cs) =
        ⟨t, true, lit, lvl, true⟩ :: (walkAll cs ++ [⟨t, true, lit, lvl, false⟩]) := by
      simp [Node.walk]
    have hstep1 : step rl c w s ⟨t, true, lit, lvl, true⟩ =
        some ({ s with stack := Element.unknown :: s.stack }, []) := by
      unfold step
      simp only [hk]
      show stepEnter c s ⟨t, true, lit, lvl, true⟩ = _
      unfold stepEnter
      simp only [hcls]
      rfl
    have hinv := walkAll_inv_aux rl c w (sizeOf cs) cs le_rfl _ _ _ hch
    have hhd : s1.stack.head? = some Element.unknown := hinv.2.2.2 rfl
    have htl : s1.stack.tail = s.stack := hinv.2.2.1
    have hs1 : s1.stack = Element.unknown :: s.stack := by
      cases hc1 : s1.stack with
      | nil => rw [hc1] at hhd; exact Option.noConfusion hhd
      | cons a l =>
        rw [hc1] at hhd htl
        simp only [List.head?_cons, Option.some.injEq] at hhd
        simp only [List.tail_cons] at htl
        rw [hhd, htl]
    have hclose : (stepClose rl c w s1).isSome = true := by
      unfold stepClose
      rw [hs1]
      cases hs0 : s.stack with
      | nil => rfl
      | cons top rest2 =>
        show (if (onChildClose top Element.unknown).2 = true then
            some ((⟨s1.styleStack, (onChildClose top Element.unknown).1 :: rest2, true⟩ :
                MState),
              (if s1.newLine = true then [RenderItem.seg "\n" none] else []) ++ [])
          else
            some ((⟨s1.styleStack, (onChildClose top Element.unknown).1 :: rest2, true⟩ :
                MState), [])).isSome = true
        cases (onChildClose top Element.unknown).2 <;> rfl
    obtain ⟨⟨s2, o2⟩, hcl⟩ := Option.isSome_iff_exists.mp hclose
    have hstep2 : step rl c w s1 ⟨t, true, lit, lvl, false⟩ = some (s2, o2) := by
      unfold step
      simp only [hk]
      show stepClose rl c w s1 = _
      exact hcl
    refine ⟨s2, [] ++ (out1 ++ (o2 ++ [])), ?_⟩
    rw [hwalk]
    exact processEvents_cons_mk hstep1
      (processEvents_append_mk hch (processEvents_cons_mk hstep2 (processEvents_nil rl c w s2)))

/-- C7 witness at the unregistered kind tags `"html_block"` and
`"custom"`. -/
theorem c7_unknown_fallback_witness :
    ("html_block" ∉ registeredKinds) ∧ classOf "html_block" = ElemClass.unknown ∧
    evKind "custom" = EvKind.other ∧ classOf "custom" = ElemClass.unknown ∧
    step rl0 cEmpty 0 s6 ⟨"custom", false, some "zz", 0, true⟩ =
      some ({ s6 with newLine := true }, []) ∧
    Element.console rl0 cEmpty 0 Element.unknown = some [] := by
  refine ⟨by decide, ?_, rfl, rfl, ?_, ?_⟩
  · exact (c7_unknown_fallback rl0 cEmpty 0).1 "html_block" (by decide)
  · exact (c7_unknown_fallback rl0 cEmpty 0).2.2.2.2.2.1 s6 "custom" (some "zz") 0 rfl rfl
  · exact (c7_unknown_fallback rl0 cEmpty 0).2.2.2.2.1

/-- C10: the Unknown variant's `on_child_close` returns true for every
child, so the children of an unrecognized container are flushed and
rendered immediately in document order — only the unknown node's own
output is empty, not its subtree's. -/
theorem c10_unknown_children_flushed (rl : RenderLines) (c : Console) (w : Int) :
    (∀ child, onChildClose Element.unknown child = (Element.unknown, true)) ∧
    (∀ (t tA tB : String), evKind t = EvKind.other → classOf t = ElemClass.unknown →
      markdownConsole rl c w (Node.mk t true none 0 [paraNode tA, paraNode tB]) =
        some [RenderItem.txt ⟨pSt c, [(tA, pSt c)], none⟩,
          RenderItem.seg "\n" none,
          RenderItem.txt ⟨pSt c, [(tB, pSt c)], none⟩]) := by
  constructor
  · intro child; rfl
  · intro t tA tB hk hcls
    have hwalk : Node.walk (.mk t true none 0 [paraNode tA, paraNode tB]) =
        ⟨t, true, none, 0, true⟩ ::
          (walkAll [paraNode tA, paraNode tB] ++ [⟨t, true, none, 0, false⟩]) := by
      simp [Node.walk]
    have hstep1 : step rl c w (initState c) ⟨t, true, none, 0, true⟩ =
        some ({ initState c with stack := [Element.unknown] }, []) := by
      unfold step
      simp only [hk]
      show stepEnter c (initState c) ⟨t, true, none, 0, true⟩ = _
      unfold stepEnter
      simp only [hcls]
      rfl
    have hch : processEvents rl c w { initState c with stack := [Element.unknown] }
        (walkAll [paraNode tA, paraNode tB]) =
        some (⟨⟨c.current_style, []⟩, [Element.unknown], true⟩,
          [RenderItem.txt ⟨pSt c, [(tA, pSt c)], none⟩,
           RenderItem.seg "\n" none,
           RenderItem.txt ⟨pSt c, [(tB, pSt c)], none⟩]) := rfl
    have hstep2 : step rl c w (⟨⟨c.current_style, []⟩, [Element.unknown], true⟩ : MState)
        ⟨t, true, none, 0, false⟩ = some (⟨⟨c.current_style, []⟩, [], true⟩, []) := by
      have e1 : evKind (⟨t, true, none, 0, false⟩ : Event).t = EvKind.other := hk
      unfold step
      rw [e1]
      rfl
    unfold markdownConsole
    rw [hwalk, processEvents_cons_mk hstep1
      (processEvents_append_mk hch (processEvents_cons_mk hstep2
        (processEvents_nil rl c w _)))]
    simp

/-- C10 witness at the unregistered kind tag `"custom"`. -/
theorem c10_unknown_children_flushed_witness :
    evKind "custom" = EvKind.other ∧ classOf "custom" = ElemClass.unknown ∧
    markdownConsole rl0 cEmpty 7 (Node.mk "custom" true none 0
        [paraNode "a", paraNode "b"]) =
      some [RenderItem.txt ⟨pSt cEmpty, [("a", pSt cEmpty)], none⟩,
        RenderItem.seg "\n" none,
        RenderItem.txt ⟨pSt cEmpty, [("b", pSt cEmpty)], none⟩] :=
  ⟨rfl, rfl,
    (c10_unknown_children_flushed rl0 cEmpty 7).2 "custom" "a" "b" rfl rfl⟩

end RichMd
